import Mathlib

/-!
Shallow embedding of `src/redist.py` of the `python-buf-exe` repository.

The script repackages upstream `buf` release binaries into reproducible
wheel archives.  We model its pure helpers directly, and its stateful
commands (`download`, `build`, `assemble`, `verify`) as explicit state
transformers over a small file-system model (`FS`).  Network and external
collaborators (the HTTP fetcher, the `twine` strict check) are passed in
as oracles.  Fallible steps (`shutil.copyfile` / `read_bytes` on a missing
file) return `Option`.
-/

namespace Redist

/-- File contents: a byte sequence, modelled as a list of naturals. -/
abbrev Bytes := List Nat

/-- Bytes of a text string (one code point per entry; a plain model of `bytes`). -/
def strBytes (s : String) : Bytes := s.toList.map Char.toNat

/-- `List.isPrefixOf` as a plain structural Boolean (kernel-friendly). -/
def listIsPre : List Char → List Char → Bool
  | [], _ => true
  | _ :: _, [] => false
  | p :: ps, c :: cs => p == c && listIsPre ps cs

/-- Whether `suf` is a suffix of `cs`. -/
def listEnds (suf cs : List Char) : Bool := listIsPre suf.reverse cs.reverse

/-- `str.startswith` on the character lists of the strings. -/
def strStarts (pre s : String) : Bool := listIsPre pre.data s.data

/-- Python `str.removeprefix`: drop `pre` when `s` starts with it, else `s`. -/
def removePre (pre s : String) : String :=
  if strStarts pre s then ⟨s.data.drop pre.data.length⟩ else s

/-- Python `str.removesuffix`: drop `suf` when `s` ends with it, else `s`. -/
def removeSuf (suf s : String) : String :=
  if listEnds suf.data s.data
  then ⟨s.data.take (s.data.length - suf.data.length)⟩ else s

/-- Shell-style glob matching, with a step-count fuel so the recursion is
structural (each step shortens `pattern length + string length`, so the
initial fuel in `globMatch` can never run out): `*` matches any run of
characters, `?` one character, anything else matches literally.
(Character classes are not used by any pattern in the source.) -/
def globFuel : Nat → List Char → List Char → Bool
  | 0, _, _ => false
  | _ + 1, [], cs => cs.isEmpty
  | f + 1, '*' :: ps, [] => globFuel f ps []
  | f + 1, '*' :: ps, c :: cs => globFuel f ps (c :: cs) || globFuel f ('*' :: ps) cs
  | _ + 1, _ :: _, [] => false
  | f + 1, p :: ps, c :: cs => (p == '?' || p == c) && globFuel f ps cs

/-- Glob matching on strings (model of `Path.glob` name matching / `fnmatch`). -/
def globMatch (pat name : String) : Bool :=
  globFuel (pat.data.length + name.data.length + 1) pat.data name.data

/-- No dots and nonempty: one or more `[^.]` characters. -/
def noDot (cs : List Char) : Bool := !cs.isEmpty && cs.all (fun c => c != '.')

/-- The asset-name filter regex of `download`: `\Abuf-[^.]+(?:\.exe)?\Z`. -/
def matchesAssetFilter (s : String) : Bool :=
  if strStarts "buf-" s then
    let rest := s.data.drop 4
    noDot rest
      || (listEnds ".exe".data rest && noDot (rest.take (rest.length - 4)))
  else false

/-! ## File-system model

Paths are component lists (relative to the repository root).  A file
system is a list of directories plus an association list from file paths
to contents.  `writeFile` overwrites the entry for an existing path and
appends a new entry otherwise; `mkdirP` is `mkdir(parents=True,
exist_ok=True)`. -/

/-- A path, as its list of components. -/
abbrev Path := List String

/-- The on-disk state: existing directories and files with their contents. -/
structure FS where
  dirs : List Path
  files : List (Path × Bytes)
deriving DecidableEq, Repr

/-- The paths of all existing files. -/
def FS.keys (fs : FS) : List Path := fs.files.map Prod.fst

/-- `Path.exists` for files. -/
abbrev FS.fileExists (fs : FS) (p : Path) : Prop := p ∈ fs.keys

/-- `Path.is_dir` / directory existence. -/
abbrev FS.dirExists (fs : FS) (d : Path) : Prop := d ∈ fs.dirs

/-- Update an association list at a key: replace the first entry with that
key, or append a new entry when the key is absent. -/
def setKey : List (Path × Bytes) → Path → Bytes → List (Path × Bytes)
  | [], p, b => [(p, b)]
  | e :: rest, p, b => if e.1 = p then (p, b) :: rest else e :: setKey rest p b

/-- Write (create or overwrite) a file. -/
def FS.writeFile (fs : FS) (p : Path) (b : Bytes) : FS :=
  { fs with files := setKey fs.files p b }

/-- Read a file's bytes; `none` when the file does not exist (I/O error). -/
def FS.readFile (fs : FS) (p : Path) : Option Bytes :=
  (fs.files.find? (fun e => e.1 = p)).map Prod.snd

/-- All ancestor paths of `d`, shortest first, ending with `d` itself. -/
def ancestors (d : Path) : List Path :=
  (List.range d.length).map (fun i => d.take (i + 1))

/-- Append, in order, the paths of `new` that are not already present. -/
def addMissing (ds : List Path) (new : List Path) : List Path :=
  new.foldl (fun acc d => if d ∈ acc then acc else acc ++ [d]) ds

/-- `Path.mkdir(parents=True, exist_ok=True)`. -/
def FS.mkdirP (fs : FS) (d : Path) : FS :=
  { fs with dirs := addMissing fs.dirs (ancestors d) }

/-- `shutil.rmtree`: remove `d` and everything below it. -/
def FS.removeTree (fs : FS) (d : Path) : FS :=
  { dirs := fs.dirs.filter (fun x => !(x.take d.length == d)),
    files := fs.files.filter (fun e => !(e.1.take d.length == d)) }

/-- `maybe_clean`: with the clean flag, wipe the directory tree; then
(re)create the directory with parents. -/
def maybe_clean (clean : Bool) (d : Path) (fs : FS) : FS :=
  (if clean = true ∧ fs.dirExists d then fs.removeTree d else fs).mkdirP d

/-- When `p` is a direct child of `parent`, its final (name) component. -/
def childOf (parent p : Path) : Option String :=
  if p.take parent.length = parent ∧ p.length = parent.length + 1
  then (p.drop parent.length).head? else none

/-- Names of the immediate subdirectories of `parent` (directory listing). -/
def FS.childDirs (fs : FS) (parent : Path) : List String :=
  fs.dirs.filterMap (childOf parent)

/-- Immediate child files of `parent`, as (name, contents) pairs. -/
def FS.childFiles (fs : FS) (parent : Path) : List (String × Bytes) :=
  fs.files.filterMap (fun e => (childOf parent e.1).map (fun n => (n, e.2)))

/-- The file entries whose top-level component is not `r` (frame helper). -/
def filesOutside (r : String) (files : List (Path × Bytes)) : List (Path × Bytes) :=
  files.filter (fun e => !(e.1.head? == some r))

/-! ## Configuration constants (`redist.py` region `config`) -/

def EXE_NAME : String := "buf"
def CACHE_DIR : Path := [".cache"]
def BUILD_DIR : Path := ["build"]
def DIST_DIR : Path := ["dist"]
def EXE_CACHE_DIR : Path := CACHE_DIR ++ [EXE_NAME]
def EXE_BUILD_DIR : Path := BUILD_DIR ++ [EXE_NAME]
def PRJ_NAME : String := EXE_NAME ++ "-exe"
def WHL_NAME : String := "buf_exe"
def UPSTREAM : String := "bufbuild/buf"
def UPSTREAM_URL : String := "https://github.com/bufbuild/buf"

/-! ## `map_platform` -/

/-- The fixed `<os>-<arch>` → wheel-platform-tag table of `map_platform`. -/
def PLATFORM_TABLE : List (String × String) :=
  [("Linux-aarch64", "manylinux_2_17_aarch64.manylinux2014_aarch64"),
   ("Linux-x86_64", "manylinux_2_5_x86_64.manylinux1_x86_64"),
   ("Darwin-arm64", "macosx_11_0_arm64"),
   ("Darwin-x86_64", "macosx_10_4_x86_64"),
   ("Windows-arm64", "win_arm64"),
   ("Windows-x86_64", "win_amd64")]

/-- The key looked up by `map_platform`:
`s.removeprefix(f"{EXE_NAME}-").removesuffix(".exe")`. -/
def platformKey (s : String) : String := removeSuf ".exe" (removePre "buf-" s)

/-- `map_platform`: table lookup on the stripped name; `None` when absent. -/
def map_platform (s : String) : Option String :=
  PLATFORM_TABLE.lookup (platformKey s)

/-! ## `download`

The network is an oracle `fetch : url → bytes`.  The release tag is taken
after `latest` resolution, and `assets` is the release's asset list (name
and browser download URL are the fields `download` uses). -/

/-- An entry of the release JSON's `assets` array, as used by `download`. -/
structure AssetInfo where
  name : String
  browser_download_url : String
deriving DecidableEq, Repr

/-- The raw LICENSE URL downloaded for a tag. -/
def licenseUrl (tag : String) : String :=
  "https://raw.githubusercontent.com/bufbuild/buf/" ++ tag ++ "/LICENSE"

/-- `download_file`: skip when the destination is already cached, else
stream the URL's contents to the destination. -/
def download_file (fetch : String → Bytes) (fs : FS) (dst : Path) (url : String) : FS :=
  if fs.fileExists dst then fs else fs.writeFile dst (fetch url)

/-- The asset loop of `download`: fetch every asset whose name matches the
asset filter, ignore the rest. -/
def downloadAssets (fetch : String → Bytes) (dir : Path) : List AssetInfo → FS → FS
  | [], fs => fs
  | a :: rest, fs =>
      downloadAssets fetch dir rest
        (if matchesAssetFilter a.name
         then download_file fetch fs (dir ++ [a.name]) a.browser_download_url
         else fs)

/-- The `download` command: clean/create the cache, create the tag
directory, fetch LICENSE, then fetch the matching assets. -/
def download (fetch : String → Bytes) (clean : Bool) (tag : String)
    (assets : List AssetInfo) (fs : FS) : FS :=
  let fs := maybe_clean clean EXE_CACHE_DIR fs
  let exe_dir : Path := EXE_CACHE_DIR ++ [tag]
  let fs := fs.mkdirP exe_dir
  let fs := download_file fetch fs (exe_dir ++ ["LICENSE"]) (licenseUrl tag)
  downloadAssets fetch exe_dir assets fs

/-! ## `build` -/

/-- Stage one raw executable: resolve its platform via `map_platform`; on
an unknown platform warn and skip, else copy it to
`build/buf/<tag>/py2.py3-none-<platform>`. -/
def stageOne (fs : FS) (tag : String) (e : String × Bytes) : FS :=
  match map_platform e.1 with
  | none => fs
  | some p => fs.writeFile (EXE_BUILD_DIR ++ [tag, "py2.py3-none-" ++ p]) e.2

/-- The per-tag executable loop of `build`. -/
def stageExes (tag : String) : List (String × Bytes) → FS → FS
  | [], fs => fs
  | e :: rest, fs => stageExes tag rest (stageOne fs tag e)

/-- The raw executables `build` stages for a cached tag: the child files of
the cache tag directory whose names match the glob `buf*`. -/
def cachedExes (fs : FS) (tag : String) : List (String × Bytes) :=
  (fs.childFiles (EXE_CACHE_DIR ++ [tag])).filter (fun e => globMatch "buf*" e.1)

/-- One iteration of `build`'s tag loop: skip non-directories, skip a tag
whose staging directory already exists, else create it, copy LICENSE
(`none` = `shutil.copyfile` raised on a missing source) and stage the
executables. -/
def buildTag (fs : FS) (tag : String) : Option FS :=
  if ¬ fs.dirExists (EXE_CACHE_DIR ++ [tag]) then some fs
  else if fs.dirExists (EXE_BUILD_DIR ++ [tag]) then some fs
  else
    let fs1 := fs.mkdirP (EXE_BUILD_DIR ++ [tag])
    match fs1.readFile (EXE_CACHE_DIR ++ [tag, "LICENSE"]) with
    | none => none
    | some lic =>
        let fs2 := fs1.writeFile (EXE_BUILD_DIR ++ [tag, "LICENSE"]) lic
        some (stageExes tag (cachedExes fs2 tag) fs2)

/-- `build`'s loop over the cached tag directories matching the glob. -/
def buildLoop (fs : FS) : List String → Option FS
  | [] => some fs
  | t :: ts =>
      match buildTag fs t with
      | none => none
      | some fs1 => buildLoop fs1 ts

/-- The `build` command.  (The source's glob also yields non-directory
entries, which it skips with a debug message and no state change, so only
child directories are enumerated here.) -/
def build (clean : Bool) (tagGlob : String) (fs : FS) : Option FS :=
  let fs := maybe_clean clean EXE_BUILD_DIR fs
  buildLoop fs ((fs.childDirs EXE_CACHE_DIR).filter (globMatch tagGlob))

/-! ## Version derivation (`assemble`)

`strftime("%Y%m%d%H%M%S", gmtime(commit_time))` needs a UTC calendar
conversion; `civilFromDays` is the standard days-to-civil algorithm. -/

/-- Convert days since 1970-01-01 to a `(year, month, day)` civil date. -/
def civilFromDays (days : Nat) : Nat × Nat × Nat :=
  let z := days + 719468
  let era := z / 146097
  let doe := z % 146097
  let yoe := (doe - doe / 1460 + doe / 36524 - doe / 146096) / 365
  let y := yoe + era * 400
  let doy := doe - (365 * yoe + yoe / 4 - yoe / 100)
  let mp := (5 * doy + 2) / 153
  let d := doy - (153 * mp + 2) / 5 + 1
  let m := if mp < 10 then mp + 3 else mp - 9
  (if m ≤ 2 then y + 1 else y, m, d)

/-- The decimal digit character for `d < 10`. -/
def digitChar : Nat → Char
  | 0 => '0' | 1 => '1' | 2 => '2' | 3 => '3' | 4 => '4'
  | 5 => '5' | 6 => '6' | 7 => '7' | 8 => '8' | _ => '9'

/-- Decimal digits of `n`, most significant first; the fuel bounds the
digit count so the recursion is structural (a fuel of `n + 1` always
suffices). -/
def natCharsFuel : Nat → Nat → List Char
  | 0, _ => []
  | f + 1, n =>
      if n < 10 then [digitChar n]
      else natCharsFuel f (n / 10) ++ [digitChar (n % 10)]

/-- Decimal rendering of a natural number. -/
def natToStr (n : Nat) : String := ⟨natCharsFuel (n + 1) n⟩

/-- Zero-pad a number to two digits (`%m`, `%d`, `%H`, `%M`, `%S`). -/
def pad2 (n : Nat) : String := if n < 10 then "0" ++ natToStr n else natToStr n

/-- Zero-pad a number to four digits (`%Y`). -/
def pad4 (n : Nat) : String :=
  if n < 10 then "000" ++ natToStr n
  else if n < 100 then "00" ++ natToStr n
  else if n < 1000 then "0" ++ natToStr n
  else natToStr n

/-- `strftime("%Y%m%d%H%M%S", gmtime(ct))`: the commit time in seconds
since the epoch rendered as a UTC `YYYYMMDDHHMMSS` string. -/
def fmtGm (ct : Nat) : String :=
  let secs := ct % 86400
  let ymd := civilFromDays (ct / 86400)
  pad4 ymd.1 ++ pad2 ymd.2.1 ++ pad2 ymd.2.2
    ++ pad2 (secs / 3600) ++ pad2 (secs % 3600 / 60) ++ pad2 (secs % 60)

/-- The version suffix of `assemble`: `.dev<timestamp>` in dev mode (from
the latest commit's timestamp `ct`), empty otherwise. -/
def version_suffix (dev : Bool) (ct : Nat) : String :=
  if dev then ".dev" ++ fmtGm ct else ""

/-- The version of a tag directory:
`str(Version(f"{tag.removeprefix('v')}{version_suffix}"))`.  The
`packaging` `Version` normalization is the identity on the canonical
`X.Y.Z[.devTIMESTAMP]` strings this pipeline consumes and is modelled as
such. -/
def versionOf (tag suf : String) : String := removePre "v" tag ++ suf

/-! ## Wheel archive construction (`ReproducibleWheelFile` and `assemble`) -/

/-- A zip entry timestamp, `(year, month, day, hour, minute, second)`. -/
abbrev DT6 := Nat × Nat × Nat × Nat × Nat × Nat

/-- `zipfile.ZIP_DEFLATED`. -/
def ZIP_DEFLATED : Nat := 8

/-- The header fields of a `zipfile.ZipInfo` that the program sets or that
the archive records.  `ext_attr` is the source's `external_attr`. -/
structure ZipInfo where
  filename : String
  date_time : DT6
  create_system : Nat
  compress_type : Nat
  ext_attr : Nat
  file_size : Nat
deriving DecidableEq, Repr

/-- A written archive member: its header and its data. -/
structure ZipEntry where
  zi : ZipInfo
  data : Bytes
deriving DecidableEq, Repr

/-- `ReproducibleWheelFile.writestr`: whatever creation system and
timestamp the incoming `ZipInfo` carries are overwritten with the constant
`create_system = 3` and the fixed epoch `1980-01-01T00:00:00` before the
entry is written. -/
def writestr (zi : ZipInfo) (data : Bytes) : ZipEntry :=
  { zi := { zi with create_system := 3, date_time := (1980, 1, 1, 0, 0, 0) }, data := data }

/-- Build one entry the way `assemble`'s loop does: a `ZipInfo` for the
archive name with deflate compression, `external_attr = (perm + 0o100000)
<< 16` (a regular file with mode `perm`) and the data's size, passed
through `ReproducibleWheelFile.writestr`.  `hostSys` and `hostNow` stand
for the host-dependent creation-system and clock values a plain archive
writer would record; `writestr` discards both. -/
def mkEntry (hostSys : Nat) (hostNow : DT6) (name : String) (v : Bytes) (perm : Nat) : ZipEntry :=
  writestr
    { filename := name, date_time := hostNow, create_system := hostSys,
      compress_type := ZIP_DEFLATED, ext_attr := (perm + 0o100000) <<< 16,
      file_size := v.length } v

/-- `emsg`: render headers (multi-valued keys appear as repeated pairs)
and an optional payload as an RFC-822 style message, as bytes. -/
def emsg (headers : List (String × String)) (payload : Option String) : Bytes :=
  strBytes
    (String.join (headers.map (fun kv => kv.1 ++ ": " ++ kv.2 ++ "\n"))
      ++ "\n" ++ (payload.getD ""))

/-- `PYPI_METADATA`, with the list-valued classifier and project-URL
entries flattened to repeated keys as `emsg` emits them. -/
def PYPI_METADATA : List (String × String) :=
  [("Metadata-Version", "2.1"),
   ("Name", PRJ_NAME),
   ("Summary", "PyPI packaged Buf CLI"),
   ("Description-Content-Type", "text/markdown"),
   ("Author", "Buf Technologies"),
   ("Maintainer", "Fleshgrinder"),
   ("Maintainer-email", "pypi@fleshgrinder.com"),
   ("Home-page", "https://github.com/fleshgrinder/python-buf-exe"),
   ("License-File", "LICENSE"),
   ("License", "Apache-2.0"),
   ("Classifier", "Topic :: Software Development :: Code Generators"),
   ("Classifier", "Topic :: Software Development :: Quality Assurance"),
   ("Classifier", "Topic :: Text Processing :: Markup"),
   ("Classifier", "Topic :: Utilities"),
   ("Classifier", "License :: OSI Approved :: Apache Software License"),
   ("Project-URL", "Official Website, https://buf.build/"),
   ("Project-URL", "Source Code, https://github.com/bufbuild/buf"),
   ("Project-URL", "Issue Tracker, https://github.com/bufbuild/buf/issues")]

/-- `WHL_METADATA`. -/
def WHL_METADATA : List (String × String) :=
  [("Wheel-Version", "1.0"),
   ("Generator", "https://github.com/fleshgrinder/python-buf-exe"),
   ("Root-Is-Purelib", "false")]

/-- The per-release PyPI metadata: the constants plus the two
release-varying fields `Version` and `Download-URL`. -/
def pypiMetadata (version tag : String) : List (String × String) :=
  PYPI_METADATA ++ [("Version", version), ("Download-URL", UPSTREAM_URL ++ "/releases/tag/" ++ tag)]

/-- The per-wheel WHEEL metadata: the constants plus the platform `Tag`. -/
def whlMetadata (platformTag : String) : List (String × String) :=
  WHL_METADATA ++ [("Tag", platformTag)]

/-- The four entries `assemble`'s loop writes explicitly into one wheel:
the executable under the scripts path with mode `0o755`, and LICENSE,
METADATA and WHEEL under the dist-info directory with mode `0o644`.  The
`wheel` library's `WheelFile.close` appends a fifth member (RECORD) after
these; see `wheelArchive`. -/
def wheelEntries (hostSys : Nat) (hostNow : DT6) (version tag platformTag : String)
    (exeBytes licBytes : Bytes) (description : String) : List ZipEntry :=
  let whl_name := WHL_NAME ++ "-" ++ version
  let exe_name := if strStarts "py2.py3-none-win" platformTag then "buf.exe" else "buf"
  let dist_info := whl_name ++ ".dist-info"
  [mkEntry hostSys hostNow (whl_name ++ ".data/scripts/" ++ exe_name) exeBytes 0o755,
   mkEntry hostSys hostNow (dist_info ++ "/LICENSE") licBytes 0o644,
   mkEntry hostSys hostNow (dist_info ++ "/METADATA")
     (emsg (pypiMetadata version tag) (some description)) 0o644,
   mkEntry hostSys hostNow (dist_info ++ "/WHEEL") (emsg (whlMetadata platformTag) none) 0o644]

/-- Stand-in for the urlsafe-base64 SHA-256 content digest the `wheel`
library records for each member: a rolling checksum rendered in decimal.
The digest algorithm itself is outside this embedding; the claims at
stake depend only on the RECORD member's existence, its name, and its
being a pure function of the written entries. -/
def digestStr (b : Bytes) : String :=
  natToStr (b.foldl (fun a x => (a * 33 + x + 1) % 1000000007) 7)

/-- The RECORD manifest `WheelFile.close` writes: one CSV row
`name,sha256=<digest>,<size>` per member written so far, in write order,
followed by the RECORD path's own row with empty digest and size. -/
def recordData (written : List ZipEntry) (record_path : String) : Bytes :=
  strBytes
    (String.join (written.map (fun e =>
        e.zi.filename ++ ",sha256=" ++ digestStr e.data ++ ","
          ++ natToStr e.data.length ++ "\n"))
      ++ record_path ++ ",,\n")

/-- The fifth archive member the `wheel` library's `WheelFile.close`
appends in write mode: `<dist-info>/RECORD`, built from the hashes and
sizes accumulated by `writestr`.  The library stamps it with the current
clock, the archive's compression (deflate here) and the group-writable
mode `0o664`; it is written through the subclass's `writestr`, which then
fixes its timestamp and creation system like every other member. -/
def recordEntry (hostSys : Nat) (hostNow : DT6) (dist_info : String)
    (written : List ZipEntry) : ZipEntry :=
  writestr
    { filename := dist_info ++ "/RECORD", date_time := hostNow, create_system := hostSys,
      compress_type := ZIP_DEFLATED, ext_attr := 0o664 <<< 16,
      file_size := (recordData written (dist_info ++ "/RECORD")).length }
    (recordData written (dist_info ++ "/RECORD"))

/-- The complete member list of one produced wheel: the four entries the
`assemble` loop writes, plus the RECORD manifest appended on close. -/
def wheelArchive (hostSys : Nat) (hostNow : DT6) (version tag platformTag : String)
    (exeBytes licBytes : Bytes) (description : String) : List ZipEntry :=
  let entries := wheelEntries hostSys hostNow version tag platformTag exeBytes licBytes description
  entries ++ [recordEntry hostSys hostNow (WHL_NAME ++ "-" ++ version ++ ".dist-info") entries]

/-- Abstract serialization of one archive member into bytes. -/
def encodeEntry (e : ZipEntry) : Bytes :=
  strBytes e.zi.filename
    ++ [0, e.zi.create_system, e.zi.compress_type, e.zi.ext_attr, e.zi.file_size,
        e.zi.date_time.1, e.zi.date_time.2.1, e.zi.date_time.2.2.1,
        e.zi.date_time.2.2.2.1, e.zi.date_time.2.2.2.2.1, e.zi.date_time.2.2.2.2.2, 0]
    ++ e.data

/-- Abstract serialization of the whole archive: the byte output is a
function of the entry sequence alone. -/
def serializeWheel (entries : List ZipEntry) : Bytes :=
  entries.foldr (fun e acc => encodeEntry e ++ acc) []

/-! ## `assemble` -/

/-- The wheel file path `dist/<version>/<whl_name>-<platform>.whl`. -/
def whlFilePath (version platformTag : String) : Path :=
  DIST_DIR ++ [version, WHL_NAME ++ "-" ++ version ++ "-" ++ platformTag ++ ".whl"]

/-- One iteration of `assemble`'s wheel loop: skip an existing wheel, else
write the archive (the loop's four entries plus the RECORD member the
wheel writer appends when the `with` block closes the file). -/
def assembleWhl (hostSys : Nat) (hostNow : DT6) (version tag : String)
    (description : String) (licBytes : Bytes) (fs : FS) (e : String × Bytes) : FS :=
  if fs.fileExists (whlFilePath version e.1) then fs
  else
    fs.writeFile (whlFilePath version e.1)
      (serializeWheel (wheelArchive hostSys hostNow version tag e.1 e.2 licBytes description))

/-- `assemble`'s loop over one tag's staged executables. -/
def assembleWhls (hostSys : Nat) (hostNow : DT6) (version tag : String)
    (description : String) (licBytes : Bytes) : List (String × Bytes) → FS → FS
  | [], fs => fs
  | e :: rest, fs =>
      assembleWhls hostSys hostNow version tag description licBytes rest
        (assembleWhl hostSys hostNow version tag description licBytes fs e)

/-- The staged executables of a tag: child files of the build tag
directory matching `py2.py3-none-*`. -/
def stagedExes (fs : FS) (tag : String) : List (String × Bytes) :=
  (fs.childFiles (EXE_BUILD_DIR ++ [tag])).filter (fun e => globMatch "py2.py3-none-*" e.1)

/-- One iteration of `assemble`'s tag loop: derive the version, create the
version directory, read the staged LICENSE (`none` = `read_bytes` raised),
then write each missing wheel. -/
def assembleTag (hostSys : Nat) (hostNow : DT6) (description suf : String)
    (fs : FS) (tag : String) : Option FS :=
  if ¬ fs.dirExists (EXE_BUILD_DIR ++ [tag]) then some fs
  else
    let version := versionOf tag suf
    let fs1 := fs.mkdirP (DIST_DIR ++ [version])
    match fs1.readFile (EXE_BUILD_DIR ++ [tag, "LICENSE"]) with
    | none => none
    | some licBytes =>
        some (assembleWhls hostSys hostNow version tag description licBytes
          (stagedExes fs1 tag) fs1)

/-- `assemble`'s loop over the staged tag directories matching the glob. -/
def assembleLoop (hostSys : Nat) (hostNow : DT6) (description suf : String)
    (fs : FS) : List String → Option FS
  | [] => some fs
  | t :: ts =>
      match assembleTag hostSys hostNow description suf fs t with
      | none => none
      | some fs1 => assembleLoop hostSys hostNow description suf fs1 ts

/-- The `assemble` command.  `ct` is the latest commit's timestamp (from
`git log -1 --format=%ct`), `description` is the README text, and
`hostSys`/`hostNow` are the host-dependent values `writestr` discards. -/
def assemble (clean dev : Bool) (tagGlob : String) (ct : Nat) (description : String)
    (hostSys : Nat) (hostNow : DT6) (fs : FS) : Option FS :=
  let fs := maybe_clean clean DIST_DIR fs
  let suf := version_suffix dev ct
  assembleLoop hostSys hostNow description suf fs
    ((fs.childDirs EXE_BUILD_DIR).filter (globMatch tagGlob))

/-! ## `verify` -/

/-- Model of the external strict structural check
(`twine.commands.check.check(dists, strict=True)`): it reports failure
exactly when at least one of the given archives fails, where the oracle
`checkOne` gives each archive's individual result (`true` = failed). -/
def twineCheck (checkOne : String → Bool) (dists : List String) : Bool :=
  dists.any checkOne

/-- The `*.whl` files of one version directory (names relative to it). -/
def distsIn (fs : FS) (vd : String) : List String :=
  ((fs.childFiles (DIST_DIR ++ [vd])).map Prod.fst).filter (globMatch "*.whl")

/-- `verify`'s loop: `errors |= check(dists)` for every matched version
directory; `checked` logs every archive handed to the check. -/
def verifyLoop (checkOne : String → Bool) (fs : FS) :
    List String → Bool → List String → Bool × List String
  | [], errors, checked => (errors, checked)
  | vd :: rest, errors, checked =>
      let dists := distsIn fs vd
      verifyLoop checkOne fs rest (errors || twineCheck checkOne dists) (checked ++ dists)

/-- The `verify` command: its `SystemExit` code `int(errors)`, together
with the list of all archives that were checked. -/
def verify (checkOne : String → Bool) (vglob : String) (fs : FS) : Nat × List String :=
  let r := verifyLoop checkOne fs ((fs.childDirs DIST_DIR).filter (globMatch vglob)) false []
  (if r.1 then 1 else 0, r.2)

/-- All `*.whl` archives in all version directories matching the glob. -/
def allDists (vglob : String) (fs : FS) : List String :=
  (((fs.childDirs DIST_DIR).filter (globMatch vglob)).map (distsIn fs)).flatten

/-! ## `Asset`, `Release`, `fetch_releases`, `sync` -/

/-- The `Asset` dataclass.  All fields except `id` are declared with
`field(hash=False)`: they stay in the generated `__eq__` (whose `compare`
default is unchanged) but are excluded from `__hash__`. -/
structure Asset where
  id : Int
  url : String
  name : String
  content_type : String
  size : Int
deriving DecidableEq, Repr

/-- `Asset.download`: its body is `pass` — it returns `None` and leaves
every file and all other state untouched. -/
def Asset.download (_a : Asset) (fs : FS) : Unit × FS := ((), fs)

/-- The `Release` dataclass; same field setup as `Asset`. -/
structure Release where
  id : Int
  url : String
  tag_name : String
  draft : Bool
  prerelease : Bool
  assets : List Asset
deriving DecidableEq, Repr

/-- The generated dataclass `__eq__`: the tuple of all fields (every field
has the `compare=True` default). -/
def releaseEq (a b : Release) : Bool :=
  a.id == b.id && a.url == b.url && a.tag_name == b.tag_name
    && a.draft == b.draft && a.prerelease == b.prerelease && a.assets == b.assets

/-- The generated dataclass `__hash__` hashes the tuple of the fields with
`hash=True`, which is `(self.id,)` alone; so the hash is a function of the
identifier only. -/
def releaseHashKey (r : Release) : Int := r.id

/-- `frozenset` materialization: membership is decided by `__eq__` (the
hash only buckets, and the id-based hash is consistent with full-field
equality), so an element is added exactly when no equal element is already
present; insertion order is kept for determinism of the model. -/
def frozensetL (l : List Release) : List Release :=
  l.foldl (fun s r => if r ∈ s then s else s ++ [r]) []

/-- The filter of `fetch_releases`: drafts and prereleases are dropped. -/
def keepRelease (r : Release) : Bool := !r.draft && !r.prerelease

/-- `fetch_releases` over the pages returned by the paginated
release-listing endpoint (each page a list of parsed `Release`s; the
claim concerns the successfully fetched sequence): each page's releases
are yielded in order, drafts and prereleases excluded. -/
def fetch_releases : List (List Release) → List Release
  | [] => []
  | p :: ps => p.filter keepRelease ++ fetch_releases ps

/-! ## Concrete inputs used by witnesses and counterexamples -/

/-- A release as fetched from page 1. -/
def rA : Release :=
  { id := 1, url := "https://example.com/a", tag_name := "v1.0.0",
    draft := false, prerelease := false, assets := [] }

/-- A release with the same identifier as `rA` fetched again on page 2,
with a different `url`. -/
def rB : Release :=
  { id := 1, url := "https://example.com/b", tag_name := "v1.0.0",
    draft := false, prerelease := false, assets := [] }

/-- The state changes of an operation stay under the top-level directory
`r`: directories are only appended, all below `r`; files outside `r` are
untouched; no file disappears. -/
def frameUnder (r : String) (fs fs' : FS) : Prop :=
  (∃ ds, fs'.dirs = fs.dirs ++ ds ∧ ∀ d ∈ ds, d.head? = some r)
  ∧ filesOutside r fs'.files = filesOutside r fs.files
  ∧ (∀ q, q ∈ fs.keys → q ∈ fs'.keys)

/-- The network oracle used by the idempotence witness. -/
def fetch0 : String → Bytes := fun _ => [7]

/-- A release asset as used by the idempotence witness. -/
def asset0 : AssetInfo :=
  { name := "buf-Linux-x86_64", browser_download_url := "https://example.com/dl" }

/-- An empty starting state. -/
def fsD0 : FS := { dirs := [], files := [] }

/-- A cache state holding one downloaded tag with LICENSE and one raw
executable. -/
def fsB0 : FS :=
  { dirs := [[".cache"], [".cache", "buf"], [".cache", "buf", "v1.0"]],
    files := [([".cache", "buf", "v1.0", "LICENSE"], [76]),
              ([".cache", "buf", "v1.0", "buf-Linux-x86_64"], [1])] }

/-- The state after one `build` pass over `fsB0`. -/
def fsB1 : FS := (build false "*" fsB0).getD fsB0

/-- The state after one `assemble` pass over the built state `fsB1`. -/
def fsA1 : FS := (assemble false false "*" 0 "" 0 (0, 0, 0, 0, 0, 0) fsB1).getD fsB1

/-! # Theorems -/

/-! ## Helper lemmas: the file-system model -/

theorem setKey_keys_self (files : List (Path × Bytes)) (p : Path) (b : Bytes) :
    p ∈ (setKey files p b).map Prod.fst := by
  induction files with
  | nil => simp [setKey]
  | cons e rest ih =>
      by_cases he : e.1 = p
      · simp [setKey, he]
      · simp only [setKey, if_neg he, List.map_cons, List.mem_cons]
        exact Or.inr ih

theorem setKey_keys_mono (files : List (Path × Bytes)) (p q : Path) (b : Bytes)
    (h : q ∈ files.map Prod.fst) : q ∈ (setKey files p b).map Prod.fst := by
  induction files with
  | nil => simp at h
  | cons e rest ih =>
      simp only [List.map_cons, List.mem_cons] at h
      by_cases he : e.1 = p
      · simp only [setKey, if_pos he, List.map_cons, List.mem_cons]
        rcases h with h | h
        · exact Or.inl (he ▸ h)
        · exact Or.inr h
      · simp only [setKey, if_neg he, List.map_cons, List.mem_cons]
        rcases h with h | h
        · exact Or.inl h
        · exact Or.inr (ih h)

theorem filter_key_setKey (pr : Path → Bool) (files : List (Path × Bytes)) (p : Path)
    (b : Bytes) (hp : pr p = false) :
    (setKey files p b).filter (fun e => pr e.1) = files.filter (fun e => pr e.1) := by
  induction files with
  | nil => simp [setKey, hp]
  | cons e rest ih =>
      by_cases he : e.1 = p
      · simp only [setKey, if_pos he, List.filter_cons]
        rw [he, hp]
        simp
      · simp only [setKey, if_neg he, List.filter_cons]
        rw [ih]

theorem find?_key_filter (pr : Path → Bool) (q : Path) (hq : pr q = true)
    (files : List (Path × Bytes)) :
    files.find? (fun e => e.1 = q)
      = (files.filter (fun e => pr e.1)).find? (fun e => e.1 = q) := by
  induction files with
  | nil => rfl
  | cons e rest ih =>
      by_cases he : e.1 = q
      · have hpe : pr e.1 = true := by rw [he]; exact hq
        rw [List.filter_cons, if_pos hpe]
        rw [List.find?_cons_of_pos _ (by simp [he]), List.find?_cons_of_pos _ (by simp [he])]
      · rw [List.find?_cons_of_neg _ (by simp [he]), List.filter_cons]
        by_cases hpe : pr e.1 = true
        · rw [if_pos hpe, List.find?_cons_of_neg _ (by simp [he])]
          exact ih
        · rw [if_neg hpe]
          exact ih

theorem writeFile_dirs (fs : FS) (p : Path) (b : Bytes) : (fs.writeFile p b).dirs = fs.dirs := rfl

theorem writeFile_keys_self (fs : FS) (p : Path) (b : Bytes) : (fs.writeFile p b).fileExists p :=
  setKey_keys_self fs.files p b

theorem writeFile_keys_mono (fs : FS) (p q : Path) (b : Bytes) (h : fs.fileExists q) :
    (fs.writeFile p b).fileExists q :=
  setKey_keys_mono fs.files p q b h

theorem mkdirP_files (fs : FS) (d : Path) : (fs.mkdirP d).files = fs.files := rfl

theorem mkdirP_keys (fs : FS) (d : Path) : (fs.mkdirP d).keys = fs.keys := rfl

theorem addMissing_shape (new ds : List Path) :
    ∃ ex, addMissing ds new = ds ++ ex ∧ ∀ x ∈ ex, x ∈ new := by
  induction new generalizing ds with
  | nil => exact ⟨[], by simp [addMissing], by simp⟩
  | cons a new ih =>
      by_cases ha : a ∈ ds
      · obtain ⟨ex, he, hm⟩ := ih ds
        refine ⟨ex, ?_, fun x hx => List.mem_cons_of_mem a (hm x hx)⟩
        simpa [addMissing, ha] using he
      · obtain ⟨ex, he, hm⟩ := ih (ds ++ [a])
        refine ⟨[a] ++ ex, ?_, ?_⟩
        · rw [show addMissing ds (a :: new) = addMissing (ds ++ [a]) new by
            simp [addMissing, ha]]
          rw [he, List.append_assoc]
        · intro x hx
          rcases List.mem_append.mp hx with hx | hx
          · simp only [List.mem_singleton] at hx
            exact hx ▸ List.mem_cons_self a new
          · exact List.mem_cons_of_mem a (hm x hx)

theorem addMissing_mem_left (new ds : List Path) (x : Path) (h : x ∈ ds) :
    x ∈ addMissing ds new := by
  obtain ⟨ex, he, _⟩ := addMissing_shape new ds
  rw [he]
  exact List.mem_append_left ex h

theorem addMissing_mem_right (new ds : List Path) (x : Path) (h : x ∈ new) :
    x ∈ addMissing ds new := by
  induction new generalizing ds with
  | nil => simp at h
  | cons a new ih =>
      rw [show addMissing ds (a :: new)
            = addMissing (if a ∈ ds then ds else ds ++ [a]) new from rfl]
      rcases List.mem_cons.mp h with rfl | h
      · by_cases ha : x ∈ ds
        · rw [if_pos ha]
          exact addMissing_mem_left new ds x ha
        · rw [if_neg ha]
          exact addMissing_mem_left new _ x (by simp)
      · exact ih _ h

theorem addMissing_eq_self (new ds : List Path) (h : ∀ x ∈ new, x ∈ ds) :
    addMissing ds new = ds := by
  induction new with
  | nil => rfl
  | cons a new ih =>
      rw [show addMissing ds (a :: new)
            = addMissing (if a ∈ ds then ds else ds ++ [a]) new from rfl]
      rw [if_pos (h a (by simp))]
      exact ih (fun x hx => h x (List.mem_cons_of_mem a hx))

theorem mkdirP_dirs_mono (fs : FS) (d x : Path) (h : x ∈ fs.dirs) : x ∈ (fs.mkdirP d).dirs :=
  addMissing_mem_left _ _ _ h

theorem mkdirP_mem_ancestors (fs : FS) (d a : Path) (h : a ∈ ancestors d) :
    a ∈ (fs.mkdirP d).dirs :=
  addMissing_mem_right _ _ _ h

theorem mkdirP_eq_self (fs : FS) (d : Path) (h : ∀ a ∈ ancestors d, a ∈ fs.dirs) :
    fs.mkdirP d = fs := by
  show { fs with dirs := addMissing fs.dirs (ancestors d) } = fs
  rw [addMissing_eq_self _ _ h]

theorem head?_take (d : Path) (i : Nat) : (d.take (i + 1)).head? = d.head? := by
  cases d <;> rfl

theorem head?_ancestors (d a : Path) (h : a ∈ ancestors d) : a.head? = d.head? := by
  unfold ancestors at h
  simp only [List.mem_map, List.mem_range] at h
  obtain ⟨i, _, rfl⟩ := h
  exact head?_take d i

theorem mem_ancestors_self (d : Path) (h : d ≠ []) : d ∈ ancestors d := by
  unfold ancestors
  simp only [List.mem_map, List.mem_range]
  refine ⟨d.length - 1, ?_, ?_⟩
  · have : 0 < d.length := List.length_pos.mpr h
    omega
  · have : 0 < d.length := List.length_pos.mpr h
    rw [show d.length - 1 + 1 = d.length by omega, List.take_length]

theorem maybe_clean_false (d : Path) (fs : FS) : maybe_clean false d fs = fs.mkdirP d := by
  unfold maybe_clean
  rw [if_neg (by simp)]

theorem childOf_none_of_head (parent p : Path) (rp : String) (hp : parent.head? = some rp)
    (hq : p.head? ≠ some rp) : childOf parent p = none := by
  unfold childOf
  rw [if_neg]
  rintro ⟨h1, h2⟩
  apply hq
  rw [← hp, ← h1]
  cases parent with
  | nil => simp at hp
  | cons x xs =>
      cases p with
      | nil => simp at h2
      | cons y ys => rfl

/-! ## Frame lemmas -/

theorem frameUnder_refl (r : String) (fs : FS) : frameUnder r fs fs :=
  ⟨⟨[], by simp, by simp⟩, rfl, fun _ h => h⟩

theorem frameUnder_trans (r : String) (fs1 fs2 fs3 : FS) (h1 : frameUnder r fs1 fs2)
    (h2 : frameUnder r fs2 fs3) : frameUnder r fs1 fs3 := by
  obtain ⟨⟨ds1, he1, hh1⟩, hf1, hk1⟩ := h1
  obtain ⟨⟨ds2, he2, hh2⟩, hf2, hk2⟩ := h2
  refine ⟨⟨ds1 ++ ds2, ?_, ?_⟩, hf2.trans hf1, fun q hq => hk2 q (hk1 q hq)⟩
  · rw [he2, he1, List.append_assoc]
  · intro d hd
    rcases List.mem_append.mp hd with hd | hd
    · exact hh1 d hd
    · exact hh2 d hd

theorem frameUnder_writeFile (r : String) (fs : FS) (p : Path) (b : Bytes)
    (h : p.head? = some r) : frameUnder r fs (fs.writeFile p b) := by
  refine ⟨⟨[], by show fs.dirs = fs.dirs ++ []; rw [List.append_nil], by simp⟩, ?_,
    fun q hq => writeFile_keys_mono fs p q b hq⟩
  show filesOutside r (setKey fs.files p b) = filesOutside r fs.files
  unfold filesOutside
  refine filter_key_setKey (fun k => !(k.head? == some r)) fs.files p b ?_
  show (!(List.head? p == some r)) = false
  rw [h]
  simp

theorem frameUnder_mkdirP (r : String) (fs : FS) (d : Path) (h : d.head? = some r) :
    frameUnder r fs (fs.mkdirP d) := by
  obtain ⟨ex, he, hm⟩ := addMissing_shape (ancestors d) fs.dirs
  refine ⟨⟨ex, he, fun x hx => ?_⟩, rfl, fun q hq => hq⟩
  rw [head?_ancestors d x (hm x hx), h]

theorem frameUnder.dirs_mono (r : String) (fs fs' : FS) (h : frameUnder r fs fs') (x : Path)
    (hx : x ∈ fs.dirs) : x ∈ fs'.dirs := by
  obtain ⟨⟨ds, he, _⟩, _, _⟩ := h
  rw [he]
  exact List.mem_append_left ds hx

theorem frameUnder.dirs_iff (r : String) (fs fs' : FS) (h : frameUnder r fs fs') (x : Path)
    (hx : x.head? ≠ some r) : x ∈ fs'.dirs ↔ x ∈ fs.dirs := by
  obtain ⟨⟨ds, he, hh⟩, _, _⟩ := h
  rw [he, List.mem_append]
  constructor
  · rintro (hm | hm)
    · exact hm
    · exact absurd (hh x hm) hx
  · exact Or.inl

theorem frameUnder.keys_mono (r : String) (fs fs' : FS) (h : frameUnder r fs fs') (q : Path)
    (hq : q ∈ fs.keys) : q ∈ fs'.keys := h.2.2 q hq

theorem filterMap_eq_filter_filterMap (f : Path × Bytes → Option (String × Bytes))
    (pr : Path × Bytes → Bool) (l : List (Path × Bytes))
    (h : ∀ e, pr e = false → f e = none) :
    l.filterMap f = (l.filter pr).filterMap f := by
  induction l with
  | nil => rfl
  | cons e rest ih =>
      rw [List.filter_cons]
      by_cases hp : pr e = true
      · rw [if_pos hp, List.filterMap_cons, List.filterMap_cons]
        cases f e <;> rw [ih]
      · rw [if_neg hp, List.filterMap_cons, h e (by revert hp; cases pr e <;> simp), ih]

theorem frameUnder.childFiles_eq (r : String) (fs fs' : FS) (h : frameUnder r fs fs')
    (parent : Path) (rp : String) (hp : parent.head? = some rp) (hne : rp ≠ r) :
    fs'.childFiles parent = fs.childFiles parent := by
  obtain ⟨_, hf, _⟩ := h
  unfold FS.childFiles
  have key : ∀ files : List (Path × Bytes),
      files.filterMap (fun e => (childOf parent e.1).map (fun n => (n, e.2)))
        = (filesOutside r files).filterMap
            (fun e => (childOf parent e.1).map (fun n => (n, e.2))) := by
    intro files
    apply filterMap_eq_filter_filterMap
    intro e he
    have hh : e.1.head? = some r := by
      have := he
      simp only [Bool.not_eq_false, beq_iff_eq] at this
      revert this
      cases hcase : (e.1.head? == some r) <;> simp_all
    rw [childOf_none_of_head parent e.1 rp hp (by rw [hh]; intro hc; exact hne (by
      injection hc with hc; exact hc.symm ▸ rfl))]
    rfl
  rw [key fs'.files, key fs.files, hf]

theorem frameUnder.childDirs_eq (r : String) (fs fs' : FS) (h : frameUnder r fs fs')
    (parent : Path) (rp : String) (hp : parent.head? = some rp) (hne : rp ≠ r) :
    fs'.childDirs parent = fs.childDirs parent := by
  obtain ⟨⟨ds, he, hh⟩, _, _⟩ := h
  unfold FS.childDirs
  rw [he, List.filterMap_append]
  have : ds.filterMap (childOf parent) = [] := by
    rw [List.filterMap_eq_nil]
    intro d hd
    refine childOf_none_of_head parent d rp hp ?_
    rw [hh d hd]
    intro hc
    injection hc with hc
    exact hne (hc.symm ▸ rfl)
  rw [this, List.append_nil]

theorem frameUnder.readFile_eq (r : String) (fs fs' : FS) (h : frameUnder r fs fs')
    (q : Path) (rq : String) (hq : q.head? = some rq) (hne : rq ≠ r) :
    fs'.readFile q = fs.readFile q := by
  obtain ⟨_, hf, _⟩ := h
  unfold FS.readFile
  have key : ∀ files : List (Path × Bytes),
      files.find? (fun e => e.1 = q) = (filesOutside r files).find? (fun e => e.1 = q) := by
    intro files
    apply find?_key_filter (fun k => !(k.head? == some r)) q
    simp only [Bool.not_eq_true', beq_eq_false_iff_ne]
    rw [hq]
    intro hc
    injection hc with hc
    exact hne (hc.symm ▸ rfl)
  rw [key fs'.files, key fs.files, hf]

/-! ## Helper lemmas: `download` -/

theorem head?_append_left (dir l : Path) (h : dir ≠ []) : (dir ++ l).head? = dir.head? := by
  cases dir with
  | nil => exact absurd rfl h
  | cons x xs => rfl

theorem download_file_skip (f : String → Bytes) (fs : FS) (dst : Path) (url : String)
    (h : fs.fileExists dst) : download_file f fs dst url = fs := by
  unfold download_file
  rw [if_pos h]

theorem download_file_keys_self (f : String → Bytes) (fs : FS) (dst : Path) (url : String) :
    (download_file f fs dst url).fileExists dst := by
  unfold download_file
  split
  · assumption
  · exact writeFile_keys_self fs dst _

theorem download_file_frame (r : String) (f : String → Bytes) (fs : FS) (dst : Path)
    (url : String) (h : dst.head? = some r) : frameUnder r fs (download_file f fs dst url) := by
  unfold download_file
  split
  · exact frameUnder_refl r fs
  · exact frameUnder_writeFile r fs dst _ h

theorem downloadAssets_frame (r : String) (f : String → Bytes) (dir : Path)
    (hd : dir.head? = some r) (hdn : dir ≠ []) (assets : List AssetInfo) :
    ∀ fs, frameUnder r fs (downloadAssets f dir assets fs) := by
  induction assets with
  | nil => intro fs; exact frameUnder_refl r fs
  | cons a rest ih =>
      intro fs
      show frameUnder r fs (downloadAssets f dir rest _)
      refine frameUnder_trans r fs _ _ ?_ (ih _)
      split
      · exact download_file_frame r f fs _ _ (by rw [head?_append_left dir _ hdn, hd])
      · exact frameUnder_refl r fs

theorem downloadAssets_keys_mono (f : String → Bytes) (dir : Path) (assets : List AssetInfo) :
    ∀ fs q, fs.fileExists q → (downloadAssets f dir assets fs).fileExists q := by
  induction assets with
  | nil => intro fs q h; exact h
  | cons a rest ih =>
      intro fs q h
      show (downloadAssets f dir rest _).fileExists q
      refine ih _ q ?_
      split
      · unfold download_file
        split
        · exact h
        · exact writeFile_keys_mono fs _ q _ h
      · exact h

theorem downloadAssets_post (f : String → Bytes) (dir : Path) (assets : List AssetInfo) :
    ∀ fs, ∀ a ∈ assets, matchesAssetFilter a.name = true
      → (downloadAssets f dir assets fs).fileExists (dir ++ [a.name]) := by
  induction assets with
  | nil => intro fs a ha; exact absurd ha (List.not_mem_nil a)
  | cons a rest ih =>
      intro fs b hb hm
      rcases List.mem_cons.mp hb with rfl | hb
      · show (downloadAssets f dir rest _).fileExists (dir ++ [b.name])
        refine downloadAssets_keys_mono f dir rest _ _ ?_
        rw [if_pos hm]
        exact download_file_keys_self f fs _ _
      · exact ih _ b hb hm

theorem downloadAssets_skip (f : String → Bytes) (dir : Path) (assets : List AssetInfo) :
    ∀ fs, (∀ a ∈ assets, matchesAssetFilter a.name = true → fs.fileExists (dir ++ [a.name]))
      → downloadAssets f dir assets fs = fs := by
  induction assets with
  | nil => intro fs _; rfl
  | cons a rest ih =>
      intro fs h
      show downloadAssets f dir rest _ = fs
      have step : (if matchesAssetFilter a.name
          then download_file f fs (dir ++ [a.name]) a.browser_download_url else fs) = fs := by
        split
        · exact download_file_skip f fs _ _ (h a (List.mem_cons_self a rest) (by assumption))
        · rfl
      rw [step]
      exact ih fs (fun b hb hm => h b (List.mem_cons_of_mem a hb) hm)

theorem download_eq_self (f : String → Bytes) (tag : String) (assets : List AssetInfo) (fs : FS)
    (h1 : ∀ a ∈ ancestors EXE_CACHE_DIR, a ∈ fs.dirs)
    (h2 : ∀ a ∈ ancestors (EXE_CACHE_DIR ++ [tag]), a ∈ fs.dirs)
    (h3 : fs.fileExists (EXE_CACHE_DIR ++ [tag] ++ ["LICENSE"]))
    (h4 : ∀ a ∈ assets, matchesAssetFilter a.name = true
      → fs.fileExists (EXE_CACHE_DIR ++ [tag] ++ [a.name])) :
    download f false tag assets fs = fs := by
  show downloadAssets f (EXE_CACHE_DIR ++ [tag]) assets
      (download_file f ((maybe_clean false EXE_CACHE_DIR fs).mkdirP (EXE_CACHE_DIR ++ [tag]))
        (EXE_CACHE_DIR ++ [tag] ++ ["LICENSE"]) (licenseUrl tag)) = fs
  rw [maybe_clean_false, mkdirP_eq_self fs _ h1, mkdirP_eq_self fs _ h2,
    download_file_skip f fs _ _ h3]
  exact downloadAssets_skip f _ assets fs h4

theorem download_idem (f : String → Bytes) (tag : String) (assets : List AssetInfo) (fs : FS) :
    download f false tag assets (download f false tag assets fs)
      = download f false tag assets fs := by
  have hcne : EXE_CACHE_DIR ++ [tag] ≠ [] := by
    exact List.append_ne_nil_of_left_ne_nil (by decide) [tag]
  have hchead : (EXE_CACHE_DIR ++ [tag]).head? = some ".cache" := rfl
  have e : download f false tag assets fs
      = downloadAssets f (EXE_CACHE_DIR ++ [tag]) assets
          (download_file f ((maybe_clean false EXE_CACHE_DIR fs).mkdirP (EXE_CACHE_DIR ++ [tag]))
            (EXE_CACHE_DIR ++ [tag] ++ ["LICENSE"]) (licenseUrl tag)) := rfl
  have frameA : frameUnder ".cache"
      (download_file f ((maybe_clean false EXE_CACHE_DIR fs).mkdirP (EXE_CACHE_DIR ++ [tag]))
        (EXE_CACHE_DIR ++ [tag] ++ ["LICENSE"]) (licenseUrl tag))
      (download f false tag assets fs) := by
    rw [e]
    exact downloadAssets_frame ".cache" f _ hchead hcne assets _
  have frameF : frameUnder ".cache"
      ((maybe_clean false EXE_CACHE_DIR fs).mkdirP (EXE_CACHE_DIR ++ [tag]))
      (download f false tag assets fs) := by
    refine frameUnder_trans ".cache" _ _ _ ?_ frameA
    exact download_file_frame ".cache" f _ _ _ rfl
  apply download_eq_self
  · intro a ha
    refine frameF.dirs_mono ".cache" _ _ a ?_
    refine mkdirP_dirs_mono _ _ a ?_
    rw [maybe_clean_false]
    exact mkdirP_mem_ancestors fs _ a ha
  · intro a ha
    refine frameF.dirs_mono ".cache" _ _ a ?_
    exact mkdirP_mem_ancestors _ _ a ha
  · rw [e]
    refine downloadAssets_keys_mono f _ assets _ _ ?_
    exact download_file_keys_self f _ _ _
  · intro a ha hm
    rw [e]
    exact downloadAssets_post f _ assets _ a ha hm

/-! ## Helper lemmas: `build` -/

theorem stageOne_frame (fs : FS) (tag : String) (e : String × Bytes) :
    frameUnder "build" fs (stageOne fs tag e) := by
  unfold stageOne
  split
  · exact frameUnder_refl _ _
  · exact frameUnder_writeFile _ _ _ _ rfl

theorem stageExes_frame (tag : String) (es : List (String × Bytes)) :
    ∀ fs, frameUnder "build" fs (stageExes tag es fs) := by
  induction es with
  | nil => intro fs; exact frameUnder_refl _ _
  | cons e rest ih =>
      intro fs
      exact frameUnder_trans _ _ _ _ (stageOne_frame fs tag e) (ih _)

theorem buildTag_spec (fs fs' : FS) (t : String) (h : buildTag fs t = some fs') :
    frameUnder "build" fs fs'
    ∧ ((EXE_CACHE_DIR ++ [t]) ∉ fs'.dirs ∨ (EXE_BUILD_DIR ++ [t]) ∈ fs'.dirs) := by
  have h2 : (if ¬ fs.dirExists (EXE_CACHE_DIR ++ [t]) then some fs
      else if fs.dirExists (EXE_BUILD_DIR ++ [t]) then some fs
      else match (fs.mkdirP (EXE_BUILD_DIR ++ [t])).readFile (EXE_CACHE_DIR ++ [t, "LICENSE"]) with
        | none => none
        | some lic =>
            some (stageExes t
              (cachedExes ((fs.mkdirP (EXE_BUILD_DIR ++ [t])).writeFile
                (EXE_BUILD_DIR ++ [t, "LICENSE"]) lic) t)
              ((fs.mkdirP (EXE_BUILD_DIR ++ [t])).writeFile
                (EXE_BUILD_DIR ++ [t, "LICENSE"]) lic))) = some fs' := h
  clear h
  rename' h2 => h
  by_cases hc : fs.dirExists (EXE_CACHE_DIR ++ [t])
  · rw [if_neg (not_not_intro hc)] at h
    by_cases hb : fs.dirExists (EXE_BUILD_DIR ++ [t])
    · rw [if_pos hb] at h
      cases h
      exact ⟨frameUnder_refl _ _, Or.inr hb⟩
    · rw [if_neg hb] at h
      cases hr : (fs.mkdirP (EXE_BUILD_DIR ++ [t])).readFile (EXE_CACHE_DIR ++ [t, "LICENSE"]) with
      | none => rw [hr] at h; cases h
      | some lic =>
          rw [hr] at h
          cases h
          have hfr : frameUnder "build" fs
              (stageExes t
                (cachedExes ((fs.mkdirP (EXE_BUILD_DIR ++ [t])).writeFile
                  (EXE_BUILD_DIR ++ [t, "LICENSE"]) lic) t)
                ((fs.mkdirP (EXE_BUILD_DIR ++ [t])).writeFile
                  (EXE_BUILD_DIR ++ [t, "LICENSE"]) lic)) := by
            refine frameUnder_trans _ _ _ _
              (frameUnder_mkdirP "build" fs (EXE_BUILD_DIR ++ [t]) rfl) ?_
            refine frameUnder_trans _ _ _ _
              (frameUnder_writeFile "build" _ (EXE_BUILD_DIR ++ [t, "LICENSE"]) lic rfl) ?_
            exact stageExes_frame t _ _
          refine ⟨hfr, Or.inr ?_⟩
          have hfr2 : frameUnder "build" (fs.mkdirP (EXE_BUILD_DIR ++ [t]))
              (stageExes t
                (cachedExes ((fs.mkdirP (EXE_BUILD_DIR ++ [t])).writeFile
                  (EXE_BUILD_DIR ++ [t, "LICENSE"]) lic) t)
                ((fs.mkdirP (EXE_BUILD_DIR ++ [t])).writeFile
                  (EXE_BUILD_DIR ++ [t, "LICENSE"]) lic)) := by
            refine frameUnder_trans _ _ _ _
              (frameUnder_writeFile "build" _ (EXE_BUILD_DIR ++ [t, "LICENSE"]) lic rfl) ?_
            exact stageExes_frame t _ _
          refine hfr2.dirs_mono "build" _ _ _ ?_
          refine mkdirP_mem_ancestors fs _ _ ?_
          refine mem_ancestors_self _ ?_
          exact List.append_ne_nil_of_left_ne_nil (by decide) [t]
  · rw [if_pos hc] at h
    cases h
    exact ⟨frameUnder_refl _ _, Or.inl hc⟩

theorem buildLoop_spec (ts : List String) :
    ∀ fs fs', buildLoop fs ts = some fs' →
      frameUnder "build" fs fs'
      ∧ ∀ t ∈ ts, (EXE_CACHE_DIR ++ [t]) ∉ fs'.dirs ∨ (EXE_BUILD_DIR ++ [t]) ∈ fs'.dirs := by
  induction ts with
  | nil =>
      intro fs fs' h
      cases h
      exact ⟨frameUnder_refl _ _, by simp⟩
  | cons t ts ih =>
      intro fs fs' h
      unfold buildLoop at h
      cases htag : buildTag fs t with
      | none => rw [htag] at h; cases h
      | some fs1 =>
          rw [htag] at h
          obtain ⟨hf, hpost⟩ := ih fs1 fs' h
          obtain ⟨hf0, hp0⟩ := buildTag_spec fs fs1 t htag
          refine ⟨frameUnder_trans _ _ _ _ hf0 hf, ?_⟩
          intro u hu
          rcases List.mem_cons.mp hu with rfl | hu
          · rcases hp0 with hp | hp
            · left
              intro hmem
              refine hp ((hf.dirs_iff "build" _ _ _ ?_).mp hmem)
              rw [show (EXE_CACHE_DIR ++ [u]).head? = some ".cache" from rfl]
              decide
            · exact Or.inr (hf.dirs_mono "build" _ _ _ hp)
          · exact hpost u hu

theorem buildTag_self (fs : FS) (t : String)
    (h : (EXE_CACHE_DIR ++ [t]) ∉ fs.dirs ∨ (EXE_BUILD_DIR ++ [t]) ∈ fs.dirs) :
    buildTag fs t = some fs := by
  unfold buildTag
  rcases h with h | h
  · rw [if_pos h]
  · by_cases hc : fs.dirExists (EXE_CACHE_DIR ++ [t])
    · rw [if_neg (not_not_intro hc), if_pos h]
    · rw [if_pos hc]

theorem buildLoop_self (ts : List String) (fs : FS)
    (h : ∀ t ∈ ts, (EXE_CACHE_DIR ++ [t]) ∉ fs.dirs ∨ (EXE_BUILD_DIR ++ [t]) ∈ fs.dirs) :
    buildLoop fs ts = some fs := by
  induction ts with
  | nil => rfl
  | cons t ts ih =>
      unfold buildLoop
      rw [buildTag_self fs t (h t (List.mem_cons_self t ts))]
      exact ih (fun u hu => h u (List.mem_cons_of_mem t hu))

theorem build_idem (g : String) (fs fs' : FS) (h : build false g fs = some fs') :
    build false g fs' = some fs' := by
  have e1 : build false g fs = buildLoop (fs.mkdirP EXE_BUILD_DIR)
      (((fs.mkdirP EXE_BUILD_DIR).childDirs EXE_CACHE_DIR).filter (globMatch g)) := by
    show buildLoop (maybe_clean false EXE_BUILD_DIR fs)
        (((maybe_clean false EXE_BUILD_DIR fs).childDirs EXE_CACHE_DIR).filter (globMatch g)) = _
    rw [maybe_clean_false]
  rw [e1] at h
  obtain ⟨hf, hpost⟩ := buildLoop_spec _ _ _ h
  have e2 : build false g fs' = buildLoop (fs'.mkdirP EXE_BUILD_DIR)
      (((fs'.mkdirP EXE_BUILD_DIR).childDirs EXE_CACHE_DIR).filter (globMatch g)) := by
    show buildLoop (maybe_clean false EXE_BUILD_DIR fs')
        (((maybe_clean false EXE_BUILD_DIR fs').childDirs EXE_CACHE_DIR).filter (globMatch g)) = _
    rw [maybe_clean_false]
  have hm : fs'.mkdirP EXE_BUILD_DIR = fs' := by
    apply mkdirP_eq_self
    intro a ha
    refine hf.dirs_mono "build" _ _ a ?_
    exact mkdirP_mem_ancestors fs _ a ha
  have hcd : fs'.childDirs EXE_CACHE_DIR = (fs.mkdirP EXE_BUILD_DIR).childDirs EXE_CACHE_DIR :=
    hf.childDirs_eq "build" _ _ EXE_CACHE_DIR ".cache" rfl (by decide)
  rw [e2, hm, hcd]
  exact buildLoop_self _ fs' hpost

/-! ## Helper lemmas: `assemble` -/

theorem assembleWhl_frame (hs : Nat) (hn : DT6) (v t d : String) (licB : Bytes) (fs : FS)
    (e : String × Bytes) : frameUnder "dist" fs (assembleWhl hs hn v t d licB fs e) := by
  unfold assembleWhl
  split
  · exact frameUnder_refl _ _
  · exact frameUnder_writeFile "dist" fs (whlFilePath v e.1) _ rfl

theorem assembleWhl_post (hs : Nat) (hn : DT6) (v t d : String) (licB : Bytes) (fs : FS)
    (e : String × Bytes) :
    (assembleWhl hs hn v t d licB fs e).fileExists (whlFilePath v e.1) := by
  unfold assembleWhl
  split
  · assumption
  · exact writeFile_keys_self fs _ _

theorem assembleWhls_frame (hs : Nat) (hn : DT6) (v t d : String) (licB : Bytes)
    (es : List (String × Bytes)) :
    ∀ fs, frameUnder "dist" fs (assembleWhls hs hn v t d licB es fs) := by
  induction es with
  | nil => intro fs; exact frameUnder_refl _ _
  | cons e rest ih =>
      intro fs
      exact frameUnder_trans _ _ _ _ (assembleWhl_frame hs hn v t d licB fs e) (ih _)

theorem assembleWhls_post (hs : Nat) (hn : DT6) (v t d : String) (licB : Bytes)
    (es : List (String × Bytes)) :
    ∀ fs, ∀ e ∈ es, (assembleWhls hs hn v t d licB es fs).fileExists (whlFilePath v e.1) := by
  induction es with
  | nil => intro fs e he; exact absurd he (List.not_mem_nil e)
  | cons e rest ih =>
      intro fs b hb
      rcases List.mem_cons.mp hb with rfl | hb
      · show (assembleWhls hs hn v t d licB rest _).fileExists (whlFilePath v b.1)
        refine (assembleWhls_frame hs hn v t d licB rest _).keys_mono "dist" _ _ _ ?_
        exact assembleWhl_post hs hn v t d licB fs b
      · exact ih _ b hb

theorem assembleWhls_skip (hs : Nat) (hn : DT6) (v t d : String) (licB : Bytes)
    (es : List (String × Bytes)) :
    ∀ fs, (∀ e ∈ es, fs.fileExists (whlFilePath v e.1))
      → assembleWhls hs hn v t d licB es fs = fs := by
  induction es with
  | nil => intro fs _; rfl
  | cons e rest ih =>
      intro fs h
      show assembleWhls hs hn v t d licB rest (assembleWhl hs hn v t d licB fs e) = fs
      have step : assembleWhl hs hn v t d licB fs e = fs := by
        unfold assembleWhl
        rw [if_pos (h e (List.mem_cons_self e rest))]
      rw [step]
      exact ih fs (fun b hb => h b (List.mem_cons_of_mem e hb))

theorem stagedExes_eq_of_frame (fs fs' : FS) (h : frameUnder "dist" fs fs') (t : String) :
    stagedExes fs' t = stagedExes fs t := by
  unfold stagedExes
  rw [h.childFiles_eq "dist" _ _ (EXE_BUILD_DIR ++ [t]) "build" rfl (by decide)]

theorem assembleTag_spec (hs : Nat) (hn : DT6) (d suf : String) (fs fs' : FS) (t : String)
    (h : assembleTag hs hn d suf fs t = some fs') :
    frameUnder "dist" fs fs'
    ∧ ((EXE_BUILD_DIR ++ [t]) ∈ fs.dirs →
        (∀ a ∈ ancestors (DIST_DIR ++ [versionOf t suf]), a ∈ fs'.dirs)
        ∧ (∃ lb, fs.readFile (EXE_BUILD_DIR ++ [t, "LICENSE"]) = some lb)
        ∧ ∀ e ∈ stagedExes fs t, fs'.fileExists (whlFilePath (versionOf t suf) e.1)) := by
  have h2 : (if ¬ fs.dirExists (EXE_BUILD_DIR ++ [t]) then some fs
      else match (fs.mkdirP (DIST_DIR ++ [versionOf t suf])).readFile
          (EXE_BUILD_DIR ++ [t, "LICENSE"]) with
        | none => none
        | some licBytes =>
            some (assembleWhls hs hn (versionOf t suf) t d licBytes
              (stagedExes (fs.mkdirP (DIST_DIR ++ [versionOf t suf])) t)
              (fs.mkdirP (DIST_DIR ++ [versionOf t suf])))) = some fs' := h
  clear h
  by_cases hb : fs.dirExists (EXE_BUILD_DIR ++ [t])
  · rw [if_neg (not_not_intro hb)] at h2
    cases hr : (fs.mkdirP (DIST_DIR ++ [versionOf t suf])).readFile
        (EXE_BUILD_DIR ++ [t, "LICENSE"]) with
    | none => rw [hr] at h2; cases h2
    | some lb =>
        rw [hr] at h2
        cases h2
        have hfr1 : frameUnder "dist" (fs.mkdirP (DIST_DIR ++ [versionOf t suf]))
            (assembleWhls hs hn (versionOf t suf) t d lb
              (stagedExes (fs.mkdirP (DIST_DIR ++ [versionOf t suf])) t)
              (fs.mkdirP (DIST_DIR ++ [versionOf t suf]))) :=
          assembleWhls_frame hs hn (versionOf t suf) t d lb _ _
        refine ⟨frameUnder_trans _ _ _ _
          (frameUnder_mkdirP "dist" fs (DIST_DIR ++ [versionOf t suf]) rfl) hfr1,
          fun _ => ⟨?_, ⟨lb, hr⟩, ?_⟩⟩
        · intro a ha
          refine hfr1.dirs_mono "dist" _ _ a ?_
          exact mkdirP_mem_ancestors fs _ a ha
        · intro e he
          exact assembleWhls_post hs hn (versionOf t suf) t d lb _ _ e he
  · rw [if_pos hb] at h2
    cases h2
    exact ⟨frameUnder_refl _ _, fun hc => absurd hc hb⟩

theorem assembleLoop_spec (hs : Nat) (hn : DT6) (d suf : String) (ts : List String) :
    ∀ fs fs', assembleLoop hs hn d suf fs ts = some fs' →
      frameUnder "dist" fs fs'
      ∧ ∀ t ∈ ts, (EXE_BUILD_DIR ++ [t]) ∈ fs'.dirs →
          (∀ a ∈ ancestors (DIST_DIR ++ [versionOf t suf]), a ∈ fs'.dirs)
          ∧ (∃ lb, fs'.readFile (EXE_BUILD_DIR ++ [t, "LICENSE"]) = some lb)
          ∧ ∀ e ∈ stagedExes fs' t, fs'.fileExists (whlFilePath (versionOf t suf) e.1) := by
  induction ts with
  | nil =>
      intro fs fs' h
      cases h
      exact ⟨frameUnder_refl _ _, by simp⟩
  | cons t ts ih =>
      intro fs fs' h
      unfold assembleLoop at h
      cases htag : assembleTag hs hn d suf fs t with
      | none => rw [htag] at h; cases h
      | some fs1 =>
          rw [htag] at h
          obtain ⟨hf, hpost⟩ := ih fs1 fs' h
          obtain ⟨hf0, hp0⟩ := assembleTag_spec hs hn d suf fs fs1 t htag
          have hftot : frameUnder "dist" fs fs' := frameUnder_trans _ _ _ _ hf0 hf
          refine ⟨hftot, ?_⟩
          intro u hu
          rcases List.mem_cons.mp hu with rfl | hu
          · intro hmem
            have hmem0 : (EXE_BUILD_DIR ++ [u]) ∈ fs.dirs := by
              refine (hftot.dirs_iff "dist" _ _ _ ?_).mp hmem
              rw [show (EXE_BUILD_DIR ++ [u]).head? = some "build" from rfl]
              decide
            obtain ⟨hanc, ⟨lb, hlb⟩, hwhl⟩ := hp0 hmem0
            refine ⟨fun a ha => hf.dirs_mono "dist" _ _ a (hanc a ha), ⟨lb, ?_⟩, ?_⟩
            · rw [hftot.readFile_eq "dist" _ _ (EXE_BUILD_DIR ++ [u, "LICENSE"]) "build" rfl
                (by decide)]
              exact hlb
            · intro e he
              rw [stagedExes_eq_of_frame fs fs' hftot u] at he
              exact hf.keys_mono "dist" _ _ _ (hwhl e he)
          · exact hpost u hu

theorem assembleTag_self (hs : Nat) (hn : DT6) (d suf : String) (fs : FS) (t : String)
    (h : (EXE_BUILD_DIR ++ [t]) ∈ fs.dirs →
        (∀ a ∈ ancestors (DIST_DIR ++ [versionOf t suf]), a ∈ fs.dirs)
        ∧ (∃ lb, fs.readFile (EXE_BUILD_DIR ++ [t, "LICENSE"]) = some lb)
        ∧ ∀ e ∈ stagedExes fs t, fs.fileExists (whlFilePath (versionOf t suf) e.1)) :
    assembleTag hs hn d suf fs t = some fs := by
  show (if ¬ fs.dirExists (EXE_BUILD_DIR ++ [t]) then some fs
      else match (fs.mkdirP (DIST_DIR ++ [versionOf t suf])).readFile
          (EXE_BUILD_DIR ++ [t, "LICENSE"]) with
        | none => none
        | some licBytes =>
            some (assembleWhls hs hn (versionOf t suf) t d licBytes
              (stagedExes (fs.mkdirP (DIST_DIR ++ [versionOf t suf])) t)
              (fs.mkdirP (DIST_DIR ++ [versionOf t suf])))) = some fs
  by_cases hb : fs.dirExists (EXE_BUILD_DIR ++ [t])
  · rw [if_neg (not_not_intro hb)]
    obtain ⟨hanc, ⟨lb, hlb⟩, hwhl⟩ := h hb
    rw [mkdirP_eq_self fs _ hanc, hlb]
    show some (assembleWhls hs hn (versionOf t suf) t d lb (stagedExes fs t) fs) = some fs
    rw [assembleWhls_skip hs hn (versionOf t suf) t d lb _ fs hwhl]
  · rw [if_pos hb]

theorem assembleLoop_self (hs : Nat) (hn : DT6) (d suf : String) (ts : List String) (fs : FS)
    (h : ∀ t ∈ ts, (EXE_BUILD_DIR ++ [t]) ∈ fs.dirs →
        (∀ a ∈ ancestors (DIST_DIR ++ [versionOf t suf]), a ∈ fs.dirs)
        ∧ (∃ lb, fs.readFile (EXE_BUILD_DIR ++ [t, "LICENSE"]) = some lb)
        ∧ ∀ e ∈ stagedExes fs t, fs.fileExists (whlFilePath (versionOf t suf) e.1)) :
    assembleLoop hs hn d suf fs ts = some fs := by
  induction ts with
  | nil => rfl
  | cons t ts ih =>
      unfold assembleLoop
      rw [assembleTag_self hs hn d suf fs t (h t (List.mem_cons_self t ts))]
      exact ih (fun u hu => h u (List.mem_cons_of_mem t hu))

theorem assemble_idem (dev : Bool) (g : String) (ct : Nat) (d : String) (hs : Nat) (hn : DT6)
    (fs fs' : FS) (h : assemble false dev g ct d hs hn fs = some fs') :
    assemble false dev g ct d hs hn fs' = some fs' := by
  have e1 : assemble false dev g ct d hs hn fs
      = assembleLoop hs hn d (version_suffix dev ct) (fs.mkdirP DIST_DIR)
          (((fs.mkdirP DIST_DIR).childDirs EXE_BUILD_DIR).filter (globMatch g)) := by
    show assembleLoop hs hn d (version_suffix dev ct) (maybe_clean false DIST_DIR fs)
        (((maybe_clean false DIST_DIR fs).childDirs EXE_BUILD_DIR).filter (globMatch g)) = _
    rw [maybe_clean_false]
  rw [e1] at h
  obtain ⟨hf, hpost⟩ := assembleLoop_spec hs hn d (version_suffix dev ct) _ _ _ h
  have e2 : assemble false dev g ct d hs hn fs'
      = assembleLoop hs hn d (version_suffix dev ct) (fs'.mkdirP DIST_DIR)
          (((fs'.mkdirP DIST_DIR).childDirs EXE_BUILD_DIR).filter (globMatch g)) := by
    show assembleLoop hs hn d (version_suffix dev ct) (maybe_clean false DIST_DIR fs')
        (((maybe_clean false DIST_DIR fs').childDirs EXE_BUILD_DIR).filter (globMatch g)) = _
    rw [maybe_clean_false]
  have hm : fs'.mkdirP DIST_DIR = fs' := by
    apply mkdirP_eq_self
    intro a ha
    refine hf.dirs_mono "dist" _ _ a ?_
    exact mkdirP_mem_ancestors fs _ a ha
  have hcd : fs'.childDirs EXE_BUILD_DIR = (fs.mkdirP DIST_DIR).childDirs EXE_BUILD_DIR :=
    hf.childDirs_eq "dist" _ _ EXE_BUILD_DIR "build" rfl (by decide)
  rw [e2, hm, hcd]
  exact assembleLoop_self hs hn d (version_suffix dev ct) _ fs' hpost

theorem version_suffix_true (ct : Nat) : version_suffix true ct = ".dev" ++ fmtGm ct := by
  simp [version_suffix]

theorem version_suffix_false (ct : Nat) : version_suffix false ct = "" := by
  simp [version_suffix]

theorem versionOf_eq (tag suf : String) : versionOf tag suf = removePre "v" tag ++ suf := rfl

theorem frozensetL_go (l acc : List Release) (h : acc.Nodup) :
    (l.foldl (fun s r => if r ∈ s then s else s ++ [r]) acc).Nodup
    ∧ ∀ r, r ∈ l.foldl (fun s r => if r ∈ s then s else s ++ [r]) acc ↔ r ∈ acc ∨ r ∈ l := by
  induction l generalizing acc with
  | nil => simpa using h
  | cons a l ih =>
      simp only [List.foldl_cons]
      by_cases ha : a ∈ acc
      · simp only [if_pos ha]
        refine ⟨(ih acc h).1, fun r => ?_⟩
        rw [(ih acc h).2 r]
        simp only [List.mem_cons]
        constructor
        · rintro (hr | hr)
          · exact Or.inl hr
          · exact Or.inr (Or.inr hr)
        · rintro (hr | rfl | hr)
          · exact Or.inl hr
          · exact Or.inl ha
          · exact Or.inr hr
      · have h2 : (acc ++ [a]).Nodup := by
          rw [← List.concat_eq_append]
          exact h.concat ha
        rw [if_neg ha]
        refine ⟨(ih _ h2).1, fun r => ?_⟩
        rw [(ih _ h2).2 r]
        simp only [List.mem_append, List.mem_singleton, List.mem_cons]
        tauto

theorem assembleWhls_host (hs : Nat) (hn : DT6) (v t d : String) (lic : Bytes)
    (es : List (String × Bytes)) :
    ∀ fs, assembleWhls hs hn v t d lic es fs
      = assembleWhls 3 (1980, 1, 1, 0, 0, 0) v t d lic es fs := by
  induction es with
  | nil => intro fs; rfl
  | cons e rest ih =>
      intro fs
      show assembleWhls hs hn v t d lic rest (assembleWhl hs hn v t d lic fs e)
        = assembleWhls 3 (1980, 1, 1, 0, 0, 0) v t d lic rest
            (assembleWhl 3 (1980, 1, 1, 0, 0, 0) v t d lic fs e)
      rw [show assembleWhl hs hn v t d lic fs e
            = assembleWhl 3 (1980, 1, 1, 0, 0, 0) v t d lic fs e from rfl]
      exact ih _

theorem assembleTag_host (hs : Nat) (hn : DT6) (d s : String) (fs : FS) (t : String) :
    assembleTag hs hn d s fs t = assembleTag 3 (1980, 1, 1, 0, 0, 0) d s fs t := by
  unfold assembleTag
  simp only [assembleWhls_host]

theorem assembleLoop_host (hs : Nat) (hn : DT6) (d s : String) (ts : List String) :
    ∀ fs, assembleLoop hs hn d s fs ts = assembleLoop 3 (1980, 1, 1, 0, 0, 0) d s fs ts := by
  induction ts with
  | nil => intro fs; rfl
  | cons t ts ih =>
      intro fs
      show (match assembleTag hs hn d s fs t with
            | none => none
            | some fs1 => assembleLoop hs hn d s fs1 ts)
        = (match assembleTag 3 (1980, 1, 1, 0, 0, 0) d s fs t with
            | none => none
            | some fs1 => assembleLoop 3 (1980, 1, 1, 0, 0, 0) d s fs1 ts)
      rw [assembleTag_host]
      cases assembleTag 3 (1980, 1, 1, 0, 0, 0) d s fs t with
      | none => rfl
      | some fs1 => exact ih fs1

theorem verifyLoop_spec (checkOne : String → Bool) (fs : FS) (ts : List String) :
    ∀ errors checked, verifyLoop checkOne fs ts errors checked
      = (errors || ((ts.map (distsIn fs)).flatten.any checkOne),
         checked ++ (ts.map (distsIn fs)).flatten) := by
  induction ts with
  | nil =>
      intro e c
      show (e, c) = _
      simp
  | cons vd ts ih =>
      intro e c
      show verifyLoop checkOne fs ts (e || twineCheck checkOne (distsIn fs vd))
          (c ++ distsIn fs vd) = _
      rw [ih]
      simp [twineCheck, List.any_append, Bool.or_assoc, List.append_assoc]

/-! ## Claims -/

/-- C1 (counterexample): the claim says releases are equal exactly when
their identifiers are equal and that duplicate identifiers across pages
collapse to one set entry regardless of the other fields.  `rA` and `rB`
share the identifier `1` and differ only in `url`, yet the generated
dataclass `__eq__` (which keeps all fields: `field(hash=False)` removes a
field from `__hash__` only, not from `__eq__`) distinguishes them, and the
`frozenset` materialization keeps both. -/
theorem release_id_dedup_cex :
    rA.id = rB.id ∧ releaseEq rA rB = false ∧ rA ≠ rB
      ∧ frozensetL [rA, rB] = [rA, rB] := by
  refine ⟨rfl, by decide, by decide, by decide⟩

/-- C1 (amended): the `Release` hash is a function of the identifier alone
(hash-equal exactly when the identifiers are equal), but the generated
equality compares all fields; so the `frozenset` materialized by `sync`
deduplicates exactly the fully identical releases: the resulting
collection has no two equal elements and contains precisely the fetched
values. -/
theorem release_identity_and_dedup (r1 r2 : Release) (l : List Release) :
    (releaseHashKey r1 = releaseHashKey r2 ↔ r1.id = r2.id)
    ∧ (releaseEq r1 r2 = true ↔ r1 = r2)
    ∧ (frozensetL l).Nodup
    ∧ (∀ r, r ∈ frozensetL l ↔ r ∈ l) := by
  refine ⟨Iff.rfl, ?_, ?_, fun r => ?_⟩
  · cases r1; cases r2
    simp [releaseEq, Release.mk.injEq]
    tauto
  · exact (frozensetL_go l [] List.nodup_nil).1
  · have h := (frozensetL_go l [] List.nodup_nil).2 r
    simp only [List.not_mem_nil, false_or] at h
    exact h

/-- C1 witness. -/
theorem release_identity_and_dedup_wit :
    releaseHashKey rA = releaseHashKey rA ∧ rA ∈ frozensetL [rA, rB] :=
  ⟨(release_identity_and_dedup rA rA []).1.mpr rfl,
   ((release_identity_and_dedup rA rB [rA, rB]).2.2.2 rA).mpr (by decide)⟩

/-- C2: `assemble` is deterministic — its output state does not depend on
the host creation-system value nor on the host clock, because
`ReproducibleWheelFile.writestr` fixes every entry's timestamp to
1980-01-01T00:00:00 and the creation system to the constant 3; two runs
over the same staged state, license, description and commit time give
byte-identical archives (equal output states). -/
theorem assemble_deterministic (clean dev : Bool) (tagGlob : String) (ct : Nat)
    (description : String) (hs1 hs2 : Nat) (hn1 hn2 : DT6) (fs : FS) :
    assemble clean dev tagGlob ct description hs1 hn1 fs
      = assemble clean dev tagGlob ct description hs2 hn2 fs := by
  unfold assemble
  rw [assembleLoop_host hs1 hn1, assembleLoop_host hs2 hn2]

/-- C3: `map_platform` is a total function (it can only return `some tag`
or `none`, never raise): whenever the stripped `<os>-<arch>` part of the
input is one of the six table keys it returns that key's fixed platform
tag, and for every other input it returns the unknown sentinel `none`. -/
theorem map_platform_total (s : String) :
    (platformKey s = "Linux-aarch64"
      → map_platform s = some "manylinux_2_17_aarch64.manylinux2014_aarch64")
    ∧ (platformKey s = "Linux-x86_64"
      → map_platform s = some "manylinux_2_5_x86_64.manylinux1_x86_64")
    ∧ (platformKey s = "Darwin-arm64" → map_platform s = some "macosx_11_0_arm64")
    ∧ (platformKey s = "Darwin-x86_64" → map_platform s = some "macosx_10_4_x86_64")
    ∧ (platformKey s = "Windows-arm64" → map_platform s = some "win_arm64")
    ∧ (platformKey s = "Windows-x86_64" → map_platform s = some "win_amd64")
    ∧ (platformKey s ∉ PLATFORM_TABLE.map Prod.fst → map_platform s = none) := by
  refine ⟨fun h => ?_, fun h => ?_, fun h => ?_, fun h => ?_, fun h => ?_, fun h => ?_,
    fun h => ?_⟩
  all_goals unfold map_platform
  · rw [h]; rfl
  · rw [h]; rfl
  · rw [h]; rfl
  · rw [h]; rfl
  · rw [h]; rfl
  · rw [h]; rfl
  · simp only [PLATFORM_TABLE, List.map_cons, List.map_nil, List.mem_cons,
      List.not_mem_nil, or_false, not_or] at h
    obtain ⟨h1, h2, h3, h4, h5, h6⟩ := h
    simp only [PLATFORM_TABLE, List.lookup, beq_eq_false_iff_ne.mpr h1,
      beq_eq_false_iff_ne.mpr h2, beq_eq_false_iff_ne.mpr h3,
      beq_eq_false_iff_ne.mpr h4, beq_eq_false_iff_ne.mpr h5,
      beq_eq_false_iff_ne.mpr h6]

/-- C3 witness. -/
theorem map_platform_total_wit : map_platform "buf-Windows-x86_64.exe" = some "win_amd64" :=
  (map_platform_total "buf-Windows-x86_64.exe").2.2.2.2.2.1 (by decide)

/-- C4: `download`, `build` and `assemble` are idempotent without the
clean flag: a second invocation with identical inputs raises no error
(`build`/`assemble` still return a state rather than failing) and leaves
the on-disk state exactly as after the first run, because every operation
skips cached files, existing staged tag directories and existing
archives. -/
theorem download_build_assemble_idempotent
    (fetch : String → Bytes) (tag : String) (assets : List AssetInfo)
    (bg ag : String) (dev : Bool) (ct : Nat) (desc : String) (hs : Nat) (hn : DT6)
    (fsD fsB fsBr fsA fsAr : FS)
    (hB : build false bg fsB = some fsBr)
    (hA : assemble false dev ag ct desc hs hn fsA = some fsAr) :
    download fetch false tag assets (download fetch false tag assets fsD)
      = download fetch false tag assets fsD
    ∧ build false bg fsBr = some fsBr
    ∧ assemble false dev ag ct desc hs hn fsAr = some fsAr :=
  ⟨download_idem fetch tag assets fsD, build_idem bg fsB fsBr hB,
   assemble_idem dev ag ct desc hs hn fsA fsAr hA⟩

/-- C4 witness. -/
theorem download_build_assemble_idempotent_wit :
    download fetch0 false "v1.0" [asset0] (download fetch0 false "v1.0" [asset0] fsD0)
      = download fetch0 false "v1.0" [asset0] fsD0
    ∧ build false "*" fsB1 = some fsB1
    ∧ assemble false false "*" 0 "" 0 (0, 0, 0, 0, 0, 0) fsA1 = some fsA1 :=
  download_build_assemble_idempotent fetch0 "v1.0" [asset0] "*" "*" false 0 "" 0
    (0, 0, 0, 0, 0, 0) fsD0 fsB0 fsB1 fsB1 fsA1 (by rfl) (by rfl)

/-- C8: `verify` runs the strict structural check over every `*.whl`
archive of every version directory matching the glob — the checked log
equals the full enumeration, so no failure short-circuits the loop — it
accumulates a single any-failure flag across all of them, and the process
exit status is 1 exactly when some archive failed and 0 otherwise. -/
theorem verify_checks_all_aggregates (checkOne : String → Bool) (vglob : String) (fs : FS) :
    (verify checkOne vglob fs).2 = allDists vglob fs
    ∧ (verify checkOne vglob fs).1
        = (if (allDists vglob fs).any checkOne then 1 else 0) := by
  have e : verify checkOne vglob fs
      = (if (verifyLoop checkOne fs ((fs.childDirs DIST_DIR).filter (globMatch vglob))
            false []).1 then 1 else 0,
         (verifyLoop checkOne fs ((fs.childDirs DIST_DIR).filter (globMatch vglob))
            false []).2) := rfl
  rw [e, verifyLoop_spec, Bool.false_or]
  unfold allDists
  simp

/-- C5 (counterexample): the claim says every archive produced by
`assemble` contains exactly four entries, but the wheel writer the
program uses (`WheelFile`, the base class of `ReproducibleWheelFile`)
appends a `<dist-info>/RECORD` manifest when the `with` block closes the
file: at a concrete staged executable the produced archive has five
members, not four, the last being the RECORD manifest. -/
theorem assemble_archive_entries_cex :
    (wheelArchive 0 (0, 0, 0, 0, 0, 0) "1.0" "v1.0"
        "py2.py3-none-manylinux_2_5_x86_64.manylinux1_x86_64" [1] [76] "").length = 5
    ∧ ¬ (wheelArchive 0 (0, 0, 0, 0, 0, 0) "1.0" "v1.0"
        "py2.py3-none-manylinux_2_5_x86_64.manylinux1_x86_64" [1] [76] "").length = 4
    ∧ ((wheelArchive 0 (0, 0, 0, 0, 0, 0) "1.0" "v1.0"
        "py2.py3-none-manylinux_2_5_x86_64.manylinux1_x86_64" [1] [76] "").map
          (fun e => e.zi.filename)).getLast?
      = some "buf_exe-1.0.dist-info/RECORD" :=
  ⟨by decide, by decide, by decide⟩

/-- C5 (amended): every archive produced by `assemble` contains exactly
five entries: the four its loop writes — the executable at
`<name>-<version>.data/scripts/<exe-name>` with Unix mode 0755, and the
LICENSE copy, generated METADATA block and generated WHEEL block under
`<name>-<version>.dist-info/` with mode 0644, each a regular file (the
`0o100000` bit of `external_attr`) with deflate compression — plus the
`<name>-<version>.dist-info/RECORD` manifest the wheel writer appends on
close, likewise deflate-compressed and normalized to the fixed timestamp
and creation system. -/
theorem assemble_archive_entries (hs : Nat) (hn : DT6) (version tag platformTag : String)
    (exeBytes licBytes : Bytes) (description : String) :
    (wheelArchive hs hn version tag platformTag exeBytes licBytes description).length = 5
    ∧ (wheelArchive hs hn version tag platformTag exeBytes licBytes description).map
        (fun e => e.zi.filename)
      = [WHL_NAME ++ "-" ++ version ++ ".data/scripts/"
           ++ (if strStarts "py2.py3-none-win" platformTag then "buf.exe" else "buf"),
         WHL_NAME ++ "-" ++ version ++ ".dist-info" ++ "/LICENSE",
         WHL_NAME ++ "-" ++ version ++ ".dist-info" ++ "/METADATA",
         WHL_NAME ++ "-" ++ version ++ ".dist-info" ++ "/WHEEL",
         WHL_NAME ++ "-" ++ version ++ ".dist-info" ++ "/RECORD"]
    ∧ ((wheelArchive hs hn version tag platformTag exeBytes licBytes description).map
        (fun e => e.zi.ext_attr)).take 4
      = [(0o755 + 0o100000) <<< 16, (0o644 + 0o100000) <<< 16,
         (0o644 + 0o100000) <<< 16, (0o644 + 0o100000) <<< 16]
    ∧ (wheelArchive hs hn version tag platformTag exeBytes licBytes description).map
        (fun e => (e.zi.compress_type, e.zi.create_system, e.zi.date_time))
      = [(ZIP_DEFLATED, 3, (1980, 1, 1, 0, 0, 0)), (ZIP_DEFLATED, 3, (1980, 1, 1, 0, 0, 0)),
         (ZIP_DEFLATED, 3, (1980, 1, 1, 0, 0, 0)), (ZIP_DEFLATED, 3, (1980, 1, 1, 0, 0, 0)),
         (ZIP_DEFLATED, 3, (1980, 1, 1, 0, 0, 0))] :=
  ⟨rfl, by
      show [_, _, _, _, _] = _
      rfl,
    rfl, rfl⟩

/-- C6: the version string is the tag name with a leading `v` stripped;
in development mode the suffix `.dev` followed by the latest commit's
timestamp rendered as a UTC `YYYYMMDDHHMMSS` string is appended (for
commit time 1700000000 that suffix is `.dev20231114221320`, a 14-digit
timestamp); without development mode nothing is appended. -/
theorem version_derivation (tag : String) (ct : Nat) :
    versionOf tag (version_suffix true ct) = removePre "v" tag ++ (".dev" ++ fmtGm ct)
    ∧ versionOf tag (version_suffix false ct) = removePre "v" tag ++ ""
    ∧ version_suffix true 1700000000 = ".dev20231114221320"
    ∧ (fmtGm 1700000000).length = 14 := by
  refine ⟨?_, ?_, by decide, by decide⟩
  · rw [versionOf_eq, version_suffix_true]
  · rw [versionOf_eq, version_suffix_false]

/-- C7: for every page sequence of the release-listing endpoint,
`fetch_releases` yields exactly the releases whose `draft` and
`prerelease` flags are both false, in their original order (it equals the
order-preserving filter of the concatenated pages), and every yielded
release passes that predicate. -/
theorem fetch_releases_filtering (pages : List (List Release)) :
    fetch_releases pages = pages.flatten.filter keepRelease
    ∧ (fetch_releases pages).all (fun r => !r.draft && !r.prerelease) = true := by
  have h : fetch_releases pages = pages.flatten.filter keepRelease := by
    induction pages with
    | nil => rfl
    | cons p ps ih => simp [fetch_releases, ih, List.filter_append]
  refine ⟨h, ?_⟩
  rw [h]
  simp only [List.all_eq_true, List.mem_filter]
  intro r hr
  exact hr.2

/-- C9: `Asset.download` is a no-op: for every asset it returns `None`
(unit) and leaves the file-system state exactly as it was — it writes no
file and performs no request.  (The actual fetching in the program is done
by the `download` command.) -/
theorem asset_download_noop (a : Asset) (fs : FS) : a.download fs = ((), fs) := rfl

/-- C10: `map_platform` strips the `buf-` prefix and the `.exe` suffix
unconditionally, so every table key is mapped to its tag in all four
spellings: bare, with the `buf-` prefix, with the `.exe` suffix (also on
non-Windows names), and with both. -/
theorem map_platform_strip_forms :
    (PLATFORM_TABLE.all (fun kv =>
      map_platform kv.1 == some kv.2
      && map_platform ("buf-" ++ kv.1) == some kv.2
      && map_platform (kv.1 ++ ".exe") == some kv.2
      && map_platform ("buf-" ++ kv.1 ++ ".exe") == some kv.2)) = true := by decide

end Redist
